import Mathlib

/-!
Verification of the text-cleaning / fingerprint-clustering pipeline in
`src/homework/clean_data.py`.

Strings are embedded as lists of characters (`Str`); pandas column
operations on the `raw_text` / `key` / `cleaned_text` columns become list
transformations.  The nltk Porter stemmer is an external collaborator of
the repository; the pipeline is therefore parametrised by an arbitrary
`stem : Str → Str`, and a concrete Porter stemmer (modelled from the spec,
which names the Porter algorithm) is provided for evaluating the concrete
scenarios.
-/

namespace CleanData

/-- Python strings are embedded as lists of characters. -/
abbrev Str := List Char

/-- Convenience conversion from a Lean string literal to `Str`. -/
def str (s : String) : Str := s.toList

/-- Characters treated as whitespace by Python `str.strip` / `str.split`
(the ASCII whitespace characters). -/
def isPySpace (c : Char) : Bool :=
  c == ' ' || c == '\t' || c == '\n' || c == '\r' || c == '\x0b' || c == '\x0c'

/-- Python `str.strip()`: remove leading and trailing whitespace. -/
def pyStrip (s : Str) : Str :=
  ((s.dropWhile isPySpace).reverse.dropWhile isPySpace).reverse

/-- Helper for `pySplit`: accumulates the current token (reversed). -/
def splitAux (cur : Str) : Str → List Str
  | [] => if cur.isEmpty then [] else [cur.reverse]
  | c :: cs =>
    if isPySpace c then
      (if cur.isEmpty then splitAux [] cs else cur.reverse :: splitAux [] cs)
    else splitAux (c :: cur) cs

/-- Python `str.split()` with no argument: split on runs of whitespace,
discarding empty tokens. -/
def pySplit (s : Str) : List Str := splitAux [] s

/-- The apostrophe character (code point 39). -/
def apos : Char := Char.ofNat 39

/-- The backtick character (code point 96). -/
def btick : Char := Char.ofNat 96

/-- The opening curly-brace character (code point 123). -/
def lcurly : Char := Char.ofNat 123

/-- The closing curly-brace character (code point 125). -/
def rcurly : Char := Char.ofNat 125

/-- The characters of the source's `str.maketrans` deletion string that
come before the hyphen. -/
def punctA : List Char :=
  ['!', '"', '#', '$', '%', '&', apos, '(', ')', '*', '+', ',']

/-- The characters of the source's `str.maketrans` deletion string that
come after the hyphen. -/
def punctB : List Char :=
  ['.', '/', ':', ';', '<', '=', '>', '?', '@', '[', '\\', ']', '^', '_',
   btick, lcurly, '|', rcurly, '~']

/-- The full deletion character set of the source's
`str.translate(str.maketrans("", "", ...))` call: the 32 ASCII punctuation
characters, hyphen included (in its source position between comma and
period). -/
def sourcePunct : List Char := punctA ++ '-' :: punctB

/-- Modelled from the spec: the punctuation set listed in section 4.1
step 4, which does not contain the hyphen (the hyphen is deleted in
step 3). -/
def specPunct : List Char := punctA ++ punctB

/-- Python string joining of a token list with a single space,
`" ".join(tokens)`. -/
def joinSp : List Str → Str
  | [] => []
  | [t] => t
  | t :: ts => t ++ ' ' :: joinSp ts

/-- Python `sorted` on a list of strings: ascending code-point
lexicographic order (the order of `LinearOrder (List Char)`). -/
def sortTokens (ts : List Str) : List Str :=
  List.insertionSort (fun a b => a ≤ b) ts

/-- The Key Builder: `" ".join(sorted(set(tokens)))` — deduplicate the
token list, sort the distinct tokens ascending, join with one space. -/
def buildKey (toks : List Str) : Str := joinSp (sortTokens toks.dedup)

/-- The character-level part of `create_normalized_key`, applied to one
`raw_text` value, mirroring the source order: `str.strip`, `str.lower`,
`str.replace("-", "")`, then `str.translate` deleting `sourcePunct`. -/
def norm_chars (raw : Str) : Str :=
  (((pyStrip raw).map Char.toLower).filter (fun c => !(c == '-'))).filter
    (fun c => !(sourcePunct.contains c))

/-- The tokenization part of `create_normalized_key`: character
normalization followed by `str.split()`. -/
def tokenize (raw : Str) : List Str := pySplit (norm_chars raw)

/-- The per-record key computation of `create_normalized_key`:
normalize characters, split into tokens, stem each token with the
pluggable stemmer, then build the key. -/
def normalized_key (stem : Str → Str) (raw : Str) : Str :=
  buildKey ((tokenize raw).map stem)

/-- Modelled from the spec: the same character normalization but deleting
only the punctuation set listed in spec section 4.1 step 4 (no hyphen). -/
def norm_chars_spec (raw : Str) : Str :=
  (((pyStrip raw).map Char.toLower).filter (fun c => !(c == '-'))).filter
    (fun c => !(specPunct.contains c))

/-- Modelled from the spec: the normalization steps of section 4.1 in the
spec's fixed order (trim, lowercase, delete hyphens, delete the listed
punctuation set, split on whitespace runs, stem each token), followed by
the Key Builder of section 4.2. -/
def normalized_key_spec (stem : Str → Str) (raw : Str) : Str :=
  buildKey ((pySplit (norm_chars_spec raw)).map stem)

/-- A DataFrame row after `create_normalized_key`: the `raw_text` column
and the derived `key` column. -/
structure Record where
  raw_text : Str
  key : Str
deriving DecidableEq, Repr

/-- A DataFrame row after `generate_cleaned_text`: `cleaned_text` is the
result of `Series.map(dict)`, which is missing (`NaN`, here `none`) when
the key is absent from the dictionary. -/
structure RecordC where
  raw_text : Str
  key : Str
  cleaned_text : Option Str
deriving DecidableEq, Repr

/-- A persisted output row of `save_data`: the source selects exactly the
`raw_text` and `cleaned_text` columns, so the `key` column has no field
here. -/
structure OutRow where
  raw_text : Str
  cleaned_text : Option Str
deriving DecidableEq, Repr

/-- `create_normalized_key`: copy the `raw_text` column into `key` and
apply the normalization chain to the `key` column of every row. -/
def create_normalized_key (stem : Str → Str) (raws : List Str) : List Record :=
  raws.map (fun t => { raw_text := t, key := normalized_key stem t })

/-- `df.sort_values(by=["key", "raw_text"], ascending=[True, True])`:
sort rows by key, ties broken by `raw_text`, ascending. -/
def sort_values (rs : List Record) : List Record :=
  List.insertionSort
    (fun a b => a.key < b.key ∨ (a.key = b.key ∧ a.raw_text ≤ b.raw_text)) rs

/-- Helper for `drop_duplicates_key`: keep a row only when its key has
not been seen yet. -/
def dropDupAux (seen : List Str) : List Record → List Record
  | [] => []
  | r :: rs =>
    if r.key ∈ seen then dropDupAux seen rs
    else r :: dropDupAux (r.key :: seen) rs

/-- `df.drop_duplicates(subset="key", keep="first")`: keep the first row
(in the order of `rs`) of each distinct key. -/
def drop_duplicates_key (rs : List Record) : List Record := dropDupAux [] rs

/-- Python dictionary lookup.  The dictionaries built below always have
pairwise-distinct keys (see `key_dict_keys_nodup`), so first-match lookup
coincides with Python's last-wins insertion order. -/
def dictGet (d : List (Str × Str)) (k : Str) : Option Str :=
  (d.find? (fun p => p.1 == k)).map Prod.snd

/-- The representative dictionary of `generate_cleaned_text`:
`dict(zip(keys["key"], keys["raw_text"]))` where
`keys = df.drop_duplicates(subset="key", keep="first")`.  Note the source
applies `drop_duplicates` to `df`, not to the sorted copy. -/
def key_dict (df : List Record) : List (Str × Str) :=
  (drop_duplicates_key df).map (fun r => (r.key, r.raw_text))

set_option linter.unusedVariables false in
/-- `generate_cleaned_text`: the source sorts a copy by
`["key", "raw_text"]`, but then overwrites that copy with
`df.drop_duplicates(subset="key", keep="first")` computed from the
original `df` — the sorted frame (`keys` below) is dead.  Every row's
`cleaned_text` is the dictionary value at its key
(`df["key"].map(key_dict)`). -/
def generate_cleaned_text (df : List Record) : List RecordC :=
  let keys := sort_values df
  df.map (fun r =>
    { raw_text := r.raw_text, key := r.key,
      cleaned_text := dictGet (key_dict df) r.key })

/-- The core pipeline of `main`: `create_normalized_key` then
`generate_cleaned_text`. -/
def pipeline (stem : Str → Str) (raws : List Str) : List RecordC :=
  generate_cleaned_text (create_normalized_key stem raws)

/-- The `cleaned_text` column produced by the pipeline, as total strings.
The default branch of `getD` is never taken: see the first conjunct of
the idempotence theorem, which proves the column equals
`(pipeline_cleaned stem raws).map some`. -/
def pipeline_cleaned (stem : Str → Str) (raws : List Str) : List Str :=
  (pipeline stem raws).map (fun r => r.cleaned_text.getD r.raw_text)

/-- `save_data`: select exactly the `raw_text` and `cleaned_text`
columns; the derived `key` column is dropped. -/
def save_data (df : List RecordC) : List OutRow :=
  df.map (fun r => { raw_text := r.raw_text, cleaned_text := r.cleaned_text })

/-- Mapping a fallible function over a list with exception propagation:
this is how a thrown stemmer exception travels through the list
comprehension `[stemmer.stem(word) for word in x]` and through
`Series.apply` in the source — the first failure aborts the whole
computation. -/
def mapExcept {α β ε : Type} (f : α → Except ε β) : List α → Except ε (List β)
  | [] => Except.ok []
  | a :: as =>
    match f a with
    | Except.error e => Except.error e
    | Except.ok b =>
      match mapExcept f as with
      | Except.error e => Except.error e
      | Except.ok bs => Except.ok (b :: bs)

/-- `create_normalized_key` with a fallible stemmer: the source wraps the
stemmer calls in no `try`/`except`, so a stemmer exception propagates out
of the whole call. -/
def create_normalized_key_f {ε : Type} (stem : Str → Except ε Str)
    (raws : List Str) : Except ε (List Record) :=
  mapExcept (fun t =>
    match mapExcept stem (tokenize t) with
    | Except.error e => Except.error e
    | Except.ok stems => Except.ok { raw_text := t, key := buildKey stems }) raws

/-- A stemmer that fails on the single token `boom` and returns every
other token unchanged; used to exhibit the behaviour of the pipeline when
the pluggable stemmer signals a failure. -/
def badStem : Str → Except Unit Str :=
  fun t => if t = str "boom" then Except.error () else Except.ok t

/-- The vowel letters of the Porter algorithm. -/
def vowelsP : List Char := ['a', 'e', 'i', 'o', 'u']

/-- Consonant flags of a word, left to right (`true` = consonant).  A
letter is a consonant when it is not `a`, `e`, `i`, `o`, `u`, and not a
`y` preceded by a consonant; `prevCons` is the flag of the previous
position (`false` at the start, so an initial `y` is a consonant). -/
def consFlagsAux (prevCons : Bool) : Str → List Bool
  | [] => []
  | c :: cs =>
    let f := if vowelsP.contains c then false
             else if c == 'y' then !prevCons else true
    f :: consFlagsAux f cs

/-- Consonant flags of a whole word. -/
def consFlags (w : Str) : List Bool := consFlagsAux false w

/-- Count the flags that start a consonant run after a vowel (`prev` is
the previous flag, consonant-valued at the start so that a leading
consonant run is not counted). -/
def countVC (prev : Bool) : List Bool → Nat
  | [] => 0
  | f :: fs => (if f && !prev then 1 else 0) + countVC f fs

/-- The measure `m` of the Porter algorithm: the number of
vowel-to-consonant transitions, i.e. the `m` of `[C](VC)^m[V]`. -/
def porterMeasure (w : Str) : Nat := countVC true (consFlags w)

/-- Condition `*v*` of the Porter algorithm: the stem contains a vowel. -/
def hasVowelP (w : Str) : Bool := (consFlags w).any (fun f => !f)

/-- Condition `*d` of the Porter algorithm: the stem ends with a double
consonant. -/
def endsDoubleC (w : Str) : Bool :=
  match w.reverse with
  | a :: b :: _ => a == b && ((consFlags w).getLast?.getD false)
  | _ => false

/-- Condition `*o` of the Porter algorithm: the stem ends
consonant-vowel-consonant where the final consonant is not `w`, `x` or
`y`. -/
def endsCVC (w : Str) : Bool :=
  match (consFlags w).reverse, w.reverse with
  | c1 :: v2 :: c3 :: _, ch :: _ =>
    c1 && !v2 && c3 && !(ch == 'w' || ch == 'x' || ch == 'y')
  | _, _ => false

/-- Boolean suffix test on words. -/
def endsWith (w s : Str) : Bool := s.isSuffixOf w

/-- Remove a suffix of the given length from the end of a word. -/
def chop (w s : Str) : Str := w.take (w.length - s.length)

/-- Apply the first rule of `rules` whose suffix matches the end of `w`;
when it matches, the suffix is replaced only when `cond` holds of the
stem, and no later rule is tried (the semantics of a Porter rule
table). -/
def applyRules (cond : Str → Bool) (w : Str) : List (Str × Str) → Str
  | [] => w
  | (suf, rep) :: rest =>
    if endsWith w suf then
      (if cond (chop w suf) then chop w suf ++ rep else w)
    else applyRules cond w rest

/-- Porter step 1a: plural endings. -/
def step1a (w : Str) : Str :=
  if endsWith w (str "sses") then chop w (str "sses") ++ str "ss"
  else if endsWith w (str "ies") then chop w (str "ies") ++ str "i"
  else if endsWith w (str "ss") then w
  else if endsWith w (str "s") then chop w (str "s")
  else w

/-- Porter cleanup after removing `ed` or `ing` in step 1b. -/
def step1bPost (st : Str) : Str :=
  if endsWith st (str "at") || endsWith st (str "bl") || endsWith st (str "iz")
  then st ++ str "e"
  else if endsDoubleC st &&
      !(endsWith st (str "l") || endsWith st (str "s") || endsWith st (str "z"))
  then st.take (st.length - 1)
  else if porterMeasure st == 1 && endsCVC st then st ++ str "e"
  else st

/-- Porter step 1b: past and progressive endings. -/
def step1b (w : Str) : Str :=
  if endsWith w (str "eed") then
    (if decide (0 < porterMeasure (chop w (str "eed"))) then chop w (str "d")
     else w)
  else if endsWith w (str "ed") then
    (if hasVowelP (chop w (str "ed")) then step1bPost (chop w (str "ed"))
     else w)
  else if endsWith w (str "ing") then
    (if hasVowelP (chop w (str "ing")) then step1bPost (chop w (str "ing"))
     else w)
  else w

/-- Porter step 1c: terminal `y` to `i` when the stem contains a
vowel. -/
def step1c (w : Str) : Str :=
  if endsWith w (str "y") && hasVowelP (chop w (str "y")) then
    chop w (str "y") ++ str "i"
  else w

/-- Porter step 2 rule table, in the algorithm's order (rules are grouped
by the penultimate letter of the suffix, so at most one group can match a
given word and a first-match scan is exactly the algorithm's rule
choice). -/
def step2 (w : Str) : Str :=
  applyRules (fun st => decide (0 < porterMeasure st)) w
    [(str "ational", str "ate"), (str "tional", str "tion"),
     (str "enci", str "ence"), (str "anci", str "ance"),
     (str "izer", str "ize"), (str "abli", str "able"),
     (str "alli", str "al"), (str "entli", str "ent"),
     (str "eli", str "e"), (str "ousli", str "ous"),
     (str "ization", str "ize"), (str "ation", str "ate"),
     (str "ator", str "ate"), (str "alism", str "al"),
     (str "iveness", str "ive"), (str "fulness", str "ful"),
     (str "ousness", str "ous"), (str "aliti", str "al"),
     (str "iviti", str "ive"), (str "biliti", str "ble")]

/-- Porter step 3 rule table. -/
def step3 (w : Str) : Str :=
  applyRules (fun st => decide (0 < porterMeasure st)) w
    [(str "icate", str "ic"), (str "ative", str ""),
     (str "alize", str "al"), (str "iciti", str "ic"),
     (str "ical", str "ic"), (str "ful", str ""), (str "ness", str "")]

/-- Porter step 4: drop derivational suffixes when the measure of the
stem exceeds 1; the `ion` rule additionally requires the stem to end in
`s` or `t`. -/
def step4 (w : Str) : Str :=
  if endsWith w (str "ion") then
    (if (endsWith (chop w (str "ion")) (str "s") ||
         endsWith (chop w (str "ion")) (str "t")) &&
        decide (1 < porterMeasure (chop w (str "ion")))
     then chop w (str "ion") else w)
  else
    applyRules (fun st => decide (1 < porterMeasure st)) w
      [(str "al", str ""), (str "ance", str ""), (str "ence", str ""),
       (str "er", str ""), (str "ic", str ""), (str "able", str ""),
       (str "ible", str ""), (str "ant", str ""), (str "ement", str ""),
       (str "ment", str ""), (str "ent", str ""), (str "ou", str ""),
       (str "ism", str ""), (str "ate", str ""), (str "iti", str ""),
       (str "ous", str ""), (str "ive", str ""), (str "ize", str "")]

/-- Porter step 5a: drop a terminal `e` when the measure allows it. -/
def step5a (w : Str) : Str :=
  if endsWith w (str "e") then
    (if decide (1 < porterMeasure (chop w (str "e"))) then chop w (str "e")
     else if porterMeasure (chop w (str "e")) == 1 &&
         !(endsCVC (chop w (str "e")))
     then chop w (str "e")
     else w)
  else w

/-- Porter step 5b: reduce a terminal double `l` when the measure exceeds
1. -/
def step5b (w : Str) : Str :=
  if decide (1 < porterMeasure w) && endsDoubleC w && endsWith w (str "l")
  then w.take (w.length - 1)
  else w

/-- Modelled from the spec: the Stemmer collaborator (`nltk`'s
`PorterStemmer`, outside this repository).  Spec section 4.1 step 6 names
the Porter stemming algorithm; this is the Porter (1980) algorithm: the
word is lowercased, words of length at most two are returned unchanged,
and steps 1a through 5b are applied in order. -/
def porterStem (word : Str) : Str :=
  let w := word.map Char.toLower
  if w.length ≤ 2 then w
  else step5b (step5a (step4 (step3 (step2 (step1c (step1b (step1a w)))))))

/-! ## Properties of the Canonical Resolver (`generate_cleaned_text`) -/

/-- Every row kept by `dropDupAux seen` has a key outside `seen`. -/
lemma key_not_mem_seen_of_mem_dropDupAux :
    ∀ (rs : List Record) (seen : List Str) (r : Record),
      r ∈ dropDupAux seen rs → r.key ∉ seen := by
  intro rs
  induction rs with
  | nil => intro seen r h; simp [dropDupAux] at h
  | cons a as ih =>
    intro seen r h
    by_cases hmem : a.key ∈ seen
    · simp only [dropDupAux, if_pos hmem] at h
      exact ih seen r h
    · simp only [dropDupAux, if_neg hmem, List.mem_cons] at h
      rcases h with h | h
      · subst h; exact hmem
      · intro hr
        exact ih (a.key :: seen) r h (List.mem_cons_of_mem _ hr)

/-- The keys kept by `dropDupAux` are pairwise distinct. -/
lemma keys_dropDupAux_nodup :
    ∀ (rs : List Record) (seen : List Str),
      ((dropDupAux seen rs).map Record.key).Nodup := by
  intro rs
  induction rs with
  | nil => intro seen; simp [dropDupAux]
  | cons a as ih =>
    intro seen
    by_cases hmem : a.key ∈ seen
    · simp only [dropDupAux, if_pos hmem]; exact ih seen
    · simp only [dropDupAux, if_neg hmem, List.map_cons, List.nodup_cons]
      refine ⟨?_, ih (a.key :: seen)⟩
      intro hk
      rcases List.mem_map.mp hk with ⟨r, hr, hkey⟩
      exact key_not_mem_seen_of_mem_dropDupAux as (a.key :: seen) r hr
        (by simp [hkey])

/-- A key occurs among the rows kept by `dropDupAux seen` exactly when it
is not in `seen` and occurs among the input keys. -/
lemma mem_keys_dropDupAux :
    ∀ (rs : List Record) (seen : List Str) (k : Str),
      k ∈ (dropDupAux seen rs).map Record.key ↔
        k ∉ seen ∧ k ∈ rs.map Record.key := by
  intro rs
  induction rs with
  | nil => intro seen k; simp [dropDupAux]
  | cons a as ih =>
    intro seen k
    by_cases hmem : a.key ∈ seen
    · simp only [dropDupAux, if_pos hmem, List.map_cons, List.mem_cons]
      rw [ih]
      constructor
      · rintro ⟨hk, hmem2⟩; exact ⟨hk, Or.inr hmem2⟩
      · rintro ⟨hk, h | hmem2⟩
        · exact absurd (h ▸ hmem) hk
        · exact ⟨hk, hmem2⟩
    · simp only [dropDupAux, if_neg hmem, List.map_cons, List.mem_cons]
      rw [ih]
      constructor
      · rintro (h | ⟨hk, hmem2⟩)
        · subst h; exact ⟨hmem, Or.inl rfl⟩
        · refine ⟨fun hs => hk (List.mem_cons_of_mem _ hs), Or.inr hmem2⟩
      · rintro ⟨hk, h | hmem2⟩
        · exact Or.inl h
        · by_cases hak : k = a.key
          · exact Or.inl hak
          · exact Or.inr ⟨by simp [hak, hk], hmem2⟩

/-- Looking up a key (not yet seen) in the dictionary built from the
deduplicated rows returns the `raw_text` of the first input row carrying
that key. -/
lemma dictGet_dropDupAux :
    ∀ (rs : List Record) (seen : List Str) (k : Str), k ∉ seen →
      dictGet ((dropDupAux seen rs).map (fun r => (r.key, r.raw_text))) k =
        (rs.find? (fun r => r.key == k)).map Record.raw_text := by
  intro rs
  induction rs with
  | nil => intro seen k _; simp [dropDupAux, dictGet]
  | cons a as ih =>
    intro seen k hk
    by_cases hmem : a.key ∈ seen
    · have hne : (a.key == k) = false := by
        apply beq_eq_false_iff_ne.mpr
        intro h; exact hk (h ▸ hmem)
      rw [List.find?_cons_of_neg _ (by simp [hne]),
        show dropDupAux seen (a :: as) = dropDupAux seen as from by
          simp [dropDupAux, hmem]]
      exact ih seen k hk
    · by_cases hak : a.key = k
      · subst hak
        rw [show dropDupAux seen (a :: as) = a :: dropDupAux (a.key :: seen) as
              from by simp [dropDupAux, hmem]]
        unfold dictGet
        rw [List.map_cons, List.find?_cons_of_pos _ (by simp),
          List.find?_cons_of_pos _ (by simp)]
        rfl
      · have hne : (a.key == k) = false := beq_eq_false_iff_ne.mpr hak
        rw [show dropDupAux seen (a :: as) = a :: dropDupAux (a.key :: seen) as
              from by simp [dropDupAux, hmem]]
        unfold dictGet
        rw [List.map_cons, List.find?_cons_of_neg _ (by simp [hne]),
          List.find?_cons_of_neg _ (by simp [hne])]
        exact ih (a.key :: seen) k
          (by simp only [List.mem_cons, not_or]
              exact ⟨fun h => hak h.symm, hk⟩)

/-- The representative dictionary, looked up at any key, returns the
`raw_text` of the first row of `df` (in original row order) carrying that
key. -/
lemma dictGet_key_dict (df : List Record) (k : Str) :
    dictGet (key_dict df) k =
      (df.find? (fun r => r.key == k)).map Record.raw_text :=
  dictGet_dropDupAux df [] k (by simp)

/-- The keys of the representative dictionary are pairwise distinct. -/
lemma key_dict_keys_nodup (df : List Record) :
    ((key_dict df).map Prod.fst).Nodup := by
  have : (key_dict df).map Prod.fst = (drop_duplicates_key df).map Record.key := by
    simp [key_dict, List.map_map]
  rw [this]
  exact keys_dropDupAux_nodup df []

/-- `generate_cleaned_text` characterized: every row's `cleaned_text` is
the `raw_text` of the first row of `df`, in original order, with the same
key. -/
lemma generate_cleaned_text_eq (df : List Record) :
    generate_cleaned_text df =
      df.map (fun r =>
        { raw_text := r.raw_text, key := r.key,
          cleaned_text :=
            (df.find? (fun x => x.key == r.key)).map Record.raw_text }) := by
  unfold generate_cleaned_text
  apply List.map_congr_left
  intro r _
  rw [dictGet_key_dict]

/-- C10: the representative that `generate_cleaned_text` actually assigns
to each key is the `raw_text` of the first record, in original input row
order, whose key it is — `drop_duplicates` is applied to the original
unsorted DataFrame, so the `(key, raw_text)`-sorted copy never influences
the chosen representative. -/
theorem claim_C10_first_occurrence_representative (df : List Record) :
    generate_cleaned_text df =
      df.map (fun r =>
        { raw_text := r.raw_text, key := r.key,
          cleaned_text :=
            (df.find? (fun x => x.key == r.key)).map Record.raw_text }) :=
  generate_cleaned_text_eq df

/-- C2: for every input record set, the representative mapping built by
`generate_cleaned_text` has pairwise-distinct keys, its keys are exactly
the distinct keys present among the records, and every output record's
`cleaned_text` is `some` of the mapping's value at its key. -/
theorem claim_C2_cluster_coverage (df : List Record) :
    ((key_dict df).map Prod.fst).Nodup ∧
    (∀ k, k ∈ (key_dict df).map Prod.fst ↔ k ∈ df.map Record.key) ∧
    (∀ r ∈ generate_cleaned_text df,
      ∃ v, dictGet (key_dict df) r.key = some v ∧ r.cleaned_text = some v) := by
  refine ⟨key_dict_keys_nodup df, ?_, ?_⟩
  · intro k
    have : (key_dict df).map Prod.fst =
        (drop_duplicates_key df).map Record.key := by
      simp [key_dict, List.map_map]
    rw [this]
    have h := mem_keys_dropDupAux df [] k
    simpa [drop_duplicates_key] using h
  · intro r hr
    unfold generate_cleaned_text at hr
    rcases List.mem_map.mp hr with ⟨r0, hr0, himg⟩
    have hkey : r.key = r0.key := by rw [← himg]
    have hcl : r.cleaned_text = dictGet (key_dict df) r0.key := by rw [← himg]
    have hsome : (df.find? (fun x => x.key == r0.key)).isSome = true := by
      apply List.find?_isSome.mpr
      exact ⟨r0, hr0, by simp⟩
    rcases Option.isSome_iff_exists.mp hsome with ⟨v, hv⟩
    refine ⟨v.raw_text, ?_, ?_⟩
    · rw [hkey, dictGet_key_dict, hv]; rfl
    · rw [hcl, dictGet_key_dict, hv]; rfl

/-- Witness for C2 at a concrete two-row input sharing one key. -/
theorem claim_C2_cluster_coverage_witness :
    ∃ v, dictGet (key_dict [{ raw_text := str "b", key := str "k" },
                            { raw_text := str "a", key := str "k" }])
          (str "k") = some v ∧
      (({ raw_text := str "a", key := str "k",
          cleaned_text := some (str "b") } : RecordC)).cleaned_text = some v := by
  have h := (claim_C2_cluster_coverage
    [{ raw_text := str "b", key := str "k" },
     { raw_text := str "a", key := str "k" }]).2.2
    { raw_text := str "a", key := str "k", cleaned_text := some (str "b") }
    (by decide)
  simpa using h

/-- C1 (code bug): on a cluster with two distinct `raw_text` values, the
code's representative is the first `raw_text` in original row order, not
the lexicographically smallest one, and reversing the input rows changes
every `cleaned_text`; the `(key, raw_text)`-sorted frame the source
computes (whose head row holds the lexicographically smallest `raw_text`)
is discarded.  The claim's intended representative is `"a"` here; the
code produces `"b"`. -/
theorem claim_C1_representative_not_lex_smallest :
    (generate_cleaned_text [{ raw_text := str "b", key := str "k" },
                            { raw_text := str "a", key := str "k" }]).map
        RecordC.cleaned_text = [some (str "b"), some (str "b")] ∧
    (generate_cleaned_text [{ raw_text := str "a", key := str "k" },
                            { raw_text := str "b", key := str "k" }]).map
        RecordC.cleaned_text = [some (str "a"), some (str "a")] ∧
    sort_values [{ raw_text := str "b", key := str "k" },
                 { raw_text := str "a", key := str "k" }] =
      [{ raw_text := str "a", key := str "k" },
       { raw_text := str "b", key := str "k" }] ∧
    (str "a" : Str) < str "b" := by
  refine ⟨by decide, by decide, by decide, by decide⟩

/-! ## Idempotence of the pipeline -/

/-- `find?` only depends on the predicate's values on the list's
members. -/
lemma find?_congr_mem {α : Type} {p q : α → Bool} :
    ∀ {l : List α}, (∀ a ∈ l, p a = q a) → l.find? p = l.find? q := by
  intro l
  induction l with
  | nil => intro _; rfl
  | cons a as ih =>
    intro h
    by_cases hp : p a = true
    · rw [List.find?_cons_of_pos _ hp,
        List.find?_cons_of_pos _ (by rw [← h a (List.mem_cons_self a as)]; exact hp)]
    · rw [List.find?_cons_of_neg _ hp,
        List.find?_cons_of_neg _ (by rw [← h a (List.mem_cons_self a as)]; exact hp)]
      exact ih (fun b hb => h b (List.mem_cons_of_mem a hb))

/-- The representative the pipeline assigns to a raw text `t`: the first
raw text of the input, in row order, with the same normalized key
(defaulting to `t` itself when no row matches, which cannot happen when
`t` is one of the rows). -/
def rep (stem : Str → Str) (raws : List Str) (t : Str) : Str :=
  (raws.find? (fun u =>
    normalized_key stem u == normalized_key stem t)).getD t

/-- The `cleaned_text` column of the pipeline, before the `getD`
totalization: for each row, the first matching raw text as an option. -/
lemma pipeline_cleaned_texts (stem : Str → Str) (raws : List Str) :
    (pipeline stem raws).map RecordC.cleaned_text =
      raws.map (fun t => raws.find? (fun u =>
        normalized_key stem u == normalized_key stem t)) := by
  unfold pipeline create_normalized_key
  rw [generate_cleaned_text_eq, List.map_map, List.map_map]
  apply List.map_congr_left
  intro t _
  show ((raws.map (fun u =>
      ({ raw_text := u, key := normalized_key stem u } : Record))).find?
        (fun x => x.key == normalized_key stem t)).map Record.raw_text = _
  rw [List.find?_map, Option.map_map]
  simp [Function.comp_def]

/-- The totalized `cleaned_text` column is `rep` applied to each row. -/
lemma pipeline_cleaned_eq (stem : Str → Str) (raws : List Str) :
    pipeline_cleaned stem raws = raws.map (rep stem raws) := by
  unfold pipeline_cleaned pipeline create_normalized_key
  rw [generate_cleaned_text_eq, List.map_map, List.map_map]
  apply List.map_congr_left
  intro t _
  show (((raws.map (fun u =>
      ({ raw_text := u, key := normalized_key stem u } : Record))).find?
        (fun x => x.key == normalized_key stem t)).map Record.raw_text).getD t
    = rep stem raws t
  rw [List.find?_map, Option.map_map]
  unfold rep
  simp [Function.comp_def]

/-- For a raw text that is one of the rows, the pipeline's `find?` for
its key succeeds. -/
lemma find?_rep_isSome (stem : Str → Str) {raws : List Str} {t : Str}
    (ht : t ∈ raws) :
    ∃ v, raws.find? (fun u =>
      normalized_key stem u == normalized_key stem t) = some v := by
  apply Option.isSome_iff_exists.mp
  apply List.find?_isSome.mpr
  exact ⟨t, ht, by simp⟩

/-- The found representative has the same normalized key as the row it
represents. -/
lemma key_of_found (stem : Str → Str) {raws : List Str} {t v : Str}
    (hv : raws.find? (fun u =>
      normalized_key stem u == normalized_key stem t) = some v) :
    normalized_key stem v = normalized_key stem t := by
  have := List.find?_some hv
  simpa using this

/-- The representative of a row is a fixed point of `rep`: searching for
the representative's own key finds the representative again. -/
lemma find?_at_found (stem : Str → Str) {raws : List Str} {t v : Str}
    (hv : raws.find? (fun u =>
      normalized_key stem u == normalized_key stem t) = some v) :
    raws.find? (fun u =>
      normalized_key stem u == normalized_key stem v) = some v := by
  have hk := key_of_found stem hv
  have hfun : (fun u => normalized_key stem u == normalized_key stem v) =
      (fun u => normalized_key stem u == normalized_key stem t) := by
    funext u; rw [hk]
  rw [hfun]
  exact hv

/-- `rep` fixes its own image. -/
lemma rep_fixed (stem : Str → Str) {raws : List Str} {t v : Str}
    (hv : raws.find? (fun u =>
      normalized_key stem u == normalized_key stem t) = some v) :
    rep stem raws v = v := by
  unfold rep
  rw [find?_at_found stem hv]
  rfl

/-- `rep` preserves the normalized key of every row. -/
lemma key_rep (stem : Str → Str) {raws : List Str} {t : Str} (ht : t ∈ raws) :
    normalized_key stem (rep stem raws t) = normalized_key stem t := by
  rcases find?_rep_isSome stem ht with ⟨v, hv⟩
  unfold rep
  rw [hv]
  exact key_of_found stem hv

/-- One pass of broadcasting through `rep` is idempotent row-wise. -/
lemma rep_map_rep (stem : Str → Str) {raws : List Str} {t : Str}
    (ht : t ∈ raws) :
    rep stem (raws.map (rep stem raws)) (rep stem raws t) = rep stem raws t := by
  rcases find?_rep_isSome stem ht with ⟨v, hv⟩
  have hgt : rep stem raws t = v := by unfold rep; rw [hv]; rfl
  rw [hgt]
  have hstep : rep stem (raws.map (rep stem raws)) v =
      ((raws.map (rep stem raws)).find? (fun u =>
        normalized_key stem u == normalized_key stem v)).getD v := rfl
  rw [hstep, List.find?_map]
  have hcongr : (raws.find? ((fun u =>
      normalized_key stem u == normalized_key stem v) ∘ rep stem raws)) =
      raws.find? (fun u => normalized_key stem u == normalized_key stem v) := by
    apply find?_congr_mem
    intro a ha
    show (normalized_key stem (rep stem raws a) == normalized_key stem v) =
      (normalized_key stem a == normalized_key stem v)
    rw [key_rep stem ha]
  rw [hcongr, find?_at_found stem hv]
  show (some (rep stem raws v)).getD v = v
  rw [rep_fixed stem hv]
  rfl

/-- C3: the pipeline is idempotent.  First conjunct: the `cleaned_text`
column is everywhere defined (`NaN` never occurs) and equals the
totalized column `pipeline_cleaned`; second conjunct: re-running the
whole pipeline on the first pass's `cleaned_text` values (treated as the
new `raw_text` column) reproduces them unchanged. -/
theorem claim_C3_pipeline_idempotent (stem : Str → Str) (raws : List Str) :
    (pipeline stem raws).map RecordC.cleaned_text =
      (pipeline_cleaned stem raws).map some ∧
    pipeline_cleaned stem (pipeline_cleaned stem raws) =
      pipeline_cleaned stem raws := by
  constructor
  · rw [pipeline_cleaned_texts, pipeline_cleaned_eq, List.map_map]
    apply List.map_congr_left
    intro t ht
    rcases find?_rep_isSome stem ht with ⟨v, hv⟩
    have hgt : rep stem raws t = v := by unfold rep; rw [hv]; rfl
    simp only [Function.comp]
    rw [hv, hgt]
  · rw [pipeline_cleaned_eq stem raws,
      pipeline_cleaned_eq stem (raws.map (rep stem raws)), List.map_map]
    apply List.map_congr_left
    intro t ht
    exact rep_map_rep stem ht

/-! ## Output schema (`save_data`) -/

/-- C9: the persisted output of `save_data` carries exactly the
`raw_text` and `cleaned_text` fields (the `OutRow` type has no `key`
field — the source selects only those two columns), preserves row count
and row order, keeps every `raw_text` unchanged from the input, and
carries over each row's `cleaned_text`. -/
theorem claim_C9_output_schema (stem : Str → Str) (raws : List Str) :
    (save_data (pipeline stem raws)).map OutRow.raw_text = raws ∧
    (save_data (pipeline stem raws)).length = raws.length ∧
    (save_data (pipeline stem raws)).map OutRow.cleaned_text =
      (pipeline stem raws).map RecordC.cleaned_text := by
  refine ⟨?_, ?_, ?_⟩
  · unfold save_data pipeline create_normalized_key
    rw [generate_cleaned_text_eq]
    simp [List.map_map, Function.comp_def]
  · unfold save_data pipeline create_normalized_key
    simp [generate_cleaned_text]
  · unfold save_data
    rw [List.map_map]
    rfl

/-! ## The normalization steps (claims C5 and C6) -/

/-- A character that is not a hyphen lies in the source's deletion set
exactly when it lies in the spec's listed punctuation set (the two sets
differ only by the hyphen). -/
lemma contains_sourcePunct_eq_specPunct {c : Char} (hc : ¬c = '-') :
    sourcePunct.contains c = specPunct.contains c := by
  rw [Bool.eq_iff_iff]
  unfold sourcePunct specPunct
  simp only [List.contains_eq_any_beq, List.any_eq_true, beq_iff_eq,
    List.mem_append, List.mem_cons]
  constructor
  · rintro ⟨x, hx | hx | hx, hcx⟩
    · exact ⟨x, Or.inl hx, hcx⟩
    · exact absurd (hcx.symm ▸ hx) hc
    · exact ⟨x, Or.inr hx, hcx⟩
  · rintro ⟨x, hx | hx, hcx⟩
    · exact ⟨x, Or.inl hx, hcx⟩
    · exact ⟨x, Or.inr (Or.inr hx), hcx⟩

/-- The source's character normalization equals the spec's: once hyphens
have been deleted, deleting the hyphen-free punctuation set deletes the
same characters as the source's full translate table. -/
lemma norm_chars_eq_spec (raw : Str) : norm_chars raw = norm_chars_spec raw := by
  unfold norm_chars norm_chars_spec
  apply List.filter_congr
  intro c hc
  have hcne : ¬c = '-' := by
    have h := List.of_mem_filter hc
    simpa using h
  rw [contains_sourcePunct_eq_specPunct hcne]

/-- C5: `create_normalized_key` applies exactly the spec's steps in the
spec's fixed order — trim, lowercase, delete hyphens, delete each
character of the listed punctuation set (by deletion, never replacement
with a space), split on whitespace runs discarding empty tokens, stem
each token independently — for every raw text and every stemmer. -/
theorem claim_C5_normalization_steps (stem : Str → Str) (raw : Str) :
    normalized_key stem raw = normalized_key_spec stem raw := by
  unfold normalized_key normalized_key_spec tokenize
  rw [norm_chars_eq_spec]

/-- Splitting a string of pure whitespace yields no tokens. -/
lemma splitAux_nil_of_all_space :
    ∀ (s : Str), (∀ c ∈ s, isPySpace c = true) → splitAux [] s = [] := by
  intro s
  induction s with
  | nil => intro _; rfl
  | cons c cs ih =>
    intro h
    have hc : isPySpace c = true := h c (List.mem_cons_self _ _)
    simp only [splitAux, hc, if_true, List.isEmpty_nil]
    exact ih (fun d hd => h d (List.mem_cons_of_mem _ hd))

/-- Characters in the deletion set are already lowercase. -/
lemma toLower_of_mem_sourcePunct : ∀ c ∈ sourcePunct, Char.toLower c = c := by
  decide

/-- An `isPySpace` character is one of the six ASCII whitespace
characters. -/
lemma isPySpace_cases {c : Char} (h : isPySpace c = true) :
    c = ' ' ∨ c = '\t' ∨ c = '\n' ∨ c = '\r' ∨ c = '\x0b' ∨ c = '\x0c' := by
  unfold isPySpace at h
  simp only [Bool.or_eq_true, beq_iff_eq] at h
  tauto

/-- Whitespace characters are already lowercase. -/
lemma toLower_of_isPySpace {c : Char} (h : isPySpace c = true) :
    Char.toLower c = c := by
  rcases isPySpace_cases h with h | h | h | h | h | h <;> subst h <;> decide

/-- Membership survives `pyStrip`. -/
lemma mem_of_mem_pyStrip {c : Char} {s : Str} (h : c ∈ pyStrip s) : c ∈ s := by
  unfold pyStrip at h
  rw [List.mem_reverse] at h
  have h1 := (List.dropWhile_sublist isPySpace).subset h
  rw [List.mem_reverse] at h1
  exact (List.dropWhile_sublist isPySpace).subset h1

/-- On a raw text made of punctuation, hyphens and whitespace only, the
character normalization leaves only whitespace. -/
lemma norm_chars_all_space {raw : Str}
    (h : ∀ c ∈ raw, c ∈ sourcePunct ∨ isPySpace c = true) :
    ∀ c ∈ norm_chars raw, isPySpace c = true := by
  intro c hc
  unfold norm_chars at hc
  rw [List.mem_filter] at hc
  obtain ⟨hc1, hnp⟩ := hc
  rw [List.mem_filter] at hc1
  obtain ⟨hc2, _⟩ := hc1
  rcases List.mem_map.mp hc2 with ⟨d, hd, hdc⟩
  have hP : d ∈ sourcePunct ∨ isPySpace d = true :=
    h d (mem_of_mem_pyStrip hd)
  rcases hP with hP | hP
  · exfalso
    have hcd : c = d := by rw [← hdc, toLower_of_mem_sourcePunct d hP]
    subst hcd
    have hcontains : sourcePunct.contains c = true := by
      simp only [List.contains_eq_any_beq, List.any_eq_true, beq_iff_eq]
      exact ⟨c, hP, rfl⟩
    have hnp2 : sourcePunct.contains c = false := by simpa using hnp
    rw [hcontains] at hnp2
    exact Bool.noConfusion hnp2
  · have hcd : c = d := by rw [← hdc, toLower_of_isPySpace hP]
    subst hcd
    exact hP

/-- C6: every raw text consisting only of punctuation, hyphens and/or
whitespace (the empty string included) yields an empty token sequence and
the empty string as its key, for every stemmer — all such records share
the empty key and hence collapse into one cluster. -/
theorem claim_C6_empty_key (stem : Str → Str) (raw : Str)
    (h : ∀ c ∈ raw, c ∈ sourcePunct ∨ isPySpace c = true) :
    tokenize raw = [] ∧ normalized_key stem raw = [] := by
  have htok : tokenize raw = [] := by
    unfold tokenize pySplit
    exact splitAux_nil_of_all_space (norm_chars raw) (norm_chars_all_space h)
  refine ⟨htok, ?_⟩
  unfold normalized_key
  rw [htok]
  rfl

/-- Witness for C6 at the spec's punctuation-only scenario input. -/
theorem claim_C6_empty_key_witness :
    tokenize (str "???...,,,") = [] ∧
    normalized_key (fun t => t) (str "???...,,,") = [] :=
  claim_C6_empty_key (fun t => t) (str "???...,,,") (by decide)

/-! ## The Key Builder (claim C4) -/

/-- Two space-free words followed by either nothing or a space-initial
remainder can be recovered from their concatenation. -/
lemma append_sep_inj :
    ∀ (a1 a2 r1 r2 : Str),
      ' ' ∉ a1 → ' ' ∉ a2 →
      (r1 = [] ∨ ∃ s, r1 = ' ' :: s) → (r2 = [] ∨ ∃ s, r2 = ' ' :: s) →
      a1 ++ r1 = a2 ++ r2 → a1 = a2 ∧ r1 = r2 := by
  intro a1
  induction a1 with
  | nil =>
    intro a2 r1 r2 _ hsp2 hr1 _ heq
    cases a2 with
    | nil => exact ⟨rfl, heq⟩
    | cons d a2t =>
      exfalso
      simp only [List.nil_append, List.cons_append] at heq
      rcases hr1 with h | ⟨s, h⟩
      · rw [h] at heq; exact List.noConfusion heq
      · rw [h] at heq
        injection heq with h1 _
        exact hsp2 (by rw [h1]; exact List.mem_cons_self _ _)
  | cons c a1t ih =>
    intro a2 r1 r2 hsp1 hsp2 hr1 hr2 heq
    cases a2 with
    | nil =>
      exfalso
      simp only [List.nil_append, List.cons_append] at heq
      rcases hr2 with h | ⟨s, h⟩
      · rw [h] at heq; exact List.noConfusion heq
      · rw [h] at heq
        injection heq with h1 _
        exact hsp1 (by rw [← h1]; exact List.mem_cons_self _ _)
    | cons d a2t =>
      simp only [List.cons_append] at heq
      injection heq with hhd htl
      have hrec := ih a2t r1 r2 (fun hm => hsp1 (List.mem_cons_of_mem _ hm))
        (fun hm => hsp2 (List.mem_cons_of_mem _ hm)) hr1 hr2 htl
      exact ⟨by rw [hhd, hrec.1], hrec.2⟩

/-- The shape of `joinSp` on a nonempty token list. -/
lemma joinSp_cons (t : Str) (ts : List Str) :
    joinSp (t :: ts) = t ++ (if ts.isEmpty then [] else ' ' :: joinSp ts) := by
  cases ts with
  | nil => simp [joinSp]
  | cons s ss => simp [joinSp]

/-- Joining a list headed by a nonempty token is nonempty. -/
lemma joinSp_ne_nil {t : Str} (ht : t ≠ []) (ts : List Str) :
    joinSp (t :: ts) ≠ [] := by
  rw [joinSp_cons]
  cases t with
  | nil => exact absurd rfl ht
  | cons c cs => simp

/-- On lists of nonempty, space-free tokens, `joinSp` is injective. -/
lemma joinSp_inj :
    ∀ (l1 l2 : List Str), (∀ t ∈ l1, t ≠ [] ∧ ' ' ∉ t) →
      (∀ t ∈ l2, t ≠ [] ∧ ' ' ∉ t) → joinSp l1 = joinSp l2 → l1 = l2 := by
  intro l1
  induction l1 with
  | nil =>
    intro l2 _ h2 heq
    cases l2 with
    | nil => rfl
    | cons t ts =>
      exfalso
      simp only [joinSp] at heq
      exact joinSp_ne_nil (h2 t (List.mem_cons_self _ _)).1 ts heq.symm
  | cons t1 ts1 ih =>
    intro l2 h1 h2 heq
    cases l2 with
    | nil =>
      exfalso
      simp only [joinSp] at heq
      exact joinSp_ne_nil (h1 t1 (List.mem_cons_self _ _)).1 ts1 heq
    | cons t2 ts2 =>
      rw [joinSp_cons, joinSp_cons] at heq
      have hsep1 : (if ts1.isEmpty then ([] : Str) else ' ' :: joinSp ts1) = []
          ∨ ∃ s, (if ts1.isEmpty then ([] : Str) else ' ' :: joinSp ts1) =
              ' ' :: s := by
        by_cases h : ts1.isEmpty <;> simp [h]
      have hsep2 : (if ts2.isEmpty then ([] : Str) else ' ' :: joinSp ts2) = []
          ∨ ∃ s, (if ts2.isEmpty then ([] : Str) else ' ' :: joinSp ts2) =
              ' ' :: s := by
        by_cases h : ts2.isEmpty <;> simp [h]
      obtain ⟨hteq, hsep⟩ := append_sep_inj t1 t2 _ _
        (h1 t1 (List.mem_cons_self _ _)).2 (h2 t2 (List.mem_cons_self _ _)).2
        hsep1 hsep2 heq
      by_cases he1 : ts1.isEmpty <;> by_cases he2 : ts2.isEmpty
      · rw [List.isEmpty_iff] at he1 he2
        rw [hteq, he1, he2]
      · exfalso
        rw [if_pos he1, if_neg he2] at hsep
        exact List.noConfusion hsep
      · exfalso
        rw [if_neg he1, if_pos he2] at hsep
        exact List.noConfusion hsep
      · rw [if_neg he1, if_neg he2] at hsep
        injection hsep with _ hjoin
        rw [hteq, ih ts2 (fun t ht => h1 t (List.mem_cons_of_mem _ ht))
          (fun t ht => h2 t (List.mem_cons_of_mem _ ht)) hjoin]

/-- Membership in the sorted deduplicated token list is membership in the
original token list. -/
lemma mem_sortTokens_dedup {x : Str} {t : List Str} :
    x ∈ sortTokens t.dedup ↔ x ∈ t := by
  unfold sortTokens
  rw [List.mem_insertionSort]
  exact List.mem_dedup

/-- C4: for token sequences made of tokens proper (nonempty and
space-free, as every token produced by whitespace splitting is), the
built keys are equal exactly when the sets of distinct tokens are equal;
in particular the key ignores token order and multiplicity. -/
theorem claim_C4_key_eq_iff_same_token_set (t1 t2 : List Str)
    (h1 : ∀ t ∈ t1, t ≠ [] ∧ ' ' ∉ t) (h2 : ∀ t ∈ t2, t ≠ [] ∧ ' ' ∉ t) :
    buildKey t1 = buildKey t2 ↔ (∀ x, x ∈ t1 ↔ x ∈ t2) := by
  constructor
  · intro heq x
    unfold buildKey at heq
    have hl := joinSp_inj (sortTokens t1.dedup) (sortTokens t2.dedup)
      (fun t ht => h1 t (mem_sortTokens_dedup.mp ht))
      (fun t ht => h2 t (mem_sortTokens_dedup.mp ht)) heq
    rw [← mem_sortTokens_dedup (t := t1), hl, mem_sortTokens_dedup]
  · intro hset
    unfold buildKey
    congr 1
    apply List.eq_of_perm_of_sorted (r := fun a b : Str => a ≤ b)
    · have hperm : t1.dedup.Perm t2.dedup :=
        (List.perm_ext_iff_of_nodup (List.nodup_dedup t1)
          (List.nodup_dedup t2)).mpr
          (by intro a; rw [List.mem_dedup, List.mem_dedup]; exact hset a)
      exact (List.perm_insertionSort _ _).trans
        (hperm.trans (List.perm_insertionSort _ _).symm)
    · exact List.sorted_insertionSort _ _
    · exact List.sorted_insertionSort _ _

/-- Witness for C4: a permutation with repetitions of the same token set
builds the same key. -/
theorem claim_C4_key_eq_witness :
    buildKey [str "b", str "a", str "a"] = buildKey [str "a", str "b"] := by
  apply (claim_C4_key_eq_iff_same_token_set [str "b", str "a", str "a"]
    [str "a", str "b"] (by decide) (by decide)).mpr
  intro x
  simp only [List.mem_cons, List.not_mem_nil, or_false]
  tauto

/-! ## Scenario 1 (claim C7) -/

/-- C7 counterexample: the three scenario rows do not all receive the
same key — deleting the hyphen merges `runner-fast` into the single
token `runnerfast`, whose key differs from the key `fast run` of
`Running fast!`. -/
theorem claim_C7_not_all_same_key :
    normalized_key porterStem (str "runner-fast") ≠
      normalized_key porterStem (str "Running fast!") := by decide

/-- C7 amended: rows 1 and 3 of the scenario stem to the token list
`[run, fast]`, share the key `fast run`, and both receive
`cleaned_text = "Running fast!"` (the cluster's first row in input
order, which here is not the lexicographically smallest raw text); row 2
becomes the single token `runnerfast`, keeps its own key, and so keeps
its own text. -/
theorem claim_C7_scenario_amended :
    pipeline_cleaned porterStem
        [str "Running fast!", str "runner-fast", str "  RUNNING FAST  "] =
      [str "Running fast!", str "runner-fast", str "Running fast!"] ∧
    (tokenize (str "Running fast!")).map porterStem = [str "run", str "fast"] ∧
    (tokenize (str "  RUNNING FAST  ")).map porterStem =
      [str "run", str "fast"] ∧
    (tokenize (str "runner-fast")).map porterStem = [str "runnerfast"] ∧
    normalized_key porterStem (str "Running fast!") = str "fast run" ∧
    normalized_key porterStem (str "  RUNNING FAST  ") = str "fast run" ∧
    normalized_key porterStem (str "runner-fast") = str "runnerfast" := by
  refine ⟨by decide, by decide, by decide, by decide, by decide, by decide,
    by decide⟩

/-! ## Stemmer failure (claim C8) -/

/-- If a fallible function fails on some member of a list, mapping it
with exception propagation fails. -/
lemma mapExcept_error_of_mem {α β ε : Type} (f : α → Except ε β) :
    ∀ (l : List α) (a : α) (e : ε), a ∈ l → f a = Except.error e →
      ∃ e2, mapExcept f l = Except.error e2 := by
  intro l
  induction l with
  | nil => intro a e ha _; exact absurd ha (List.not_mem_nil a)
  | cons b bs ih =>
    intro a e ha hfa
    cases hfb : f b with
    | error eb => exact ⟨eb, by simp [mapExcept, hfb]⟩
    | ok vb =>
      rcases List.mem_cons.mp ha with hab | ha2
      · subst hab
        rw [hfa] at hfb
        exact Except.noConfusion hfb
      · rcases ih a e ha2 hfa with ⟨e2, h2⟩
        exact ⟨e2, by simp [mapExcept, hfb, h2]⟩

/-- C8 counterexample: when the pluggable stemmer signals a failure on
one token, `create_normalized_key` aborts the whole batch with that
failure instead of falling back to the unstemmed token (which would have
produced the single record with key `boom run`). -/
theorem claim_C8_stemmer_failure_aborts :
    create_normalized_key_f badStem [str "boom run"] = Except.error () ∧
    (Except.error () : Except Unit (List Record)) ≠
      Except.ok [({ raw_text := str "boom run",
                    key := str "boom run" } : Record)] := by
  constructor
  · rfl
  · intro h
    exact Except.noConfusion h

/-- C8 amended: if the stemmer signals a failure on any token of any
record, the exception propagates and the whole batch fails — there is no
per-token fallback and no continuation. -/
theorem claim_C8_failure_propagates {ε : Type} (stem : Str → Except ε Str)
    (raws : List Str) (raw tok : Str) (e : ε)
    (hraw : raw ∈ raws) (htok : tok ∈ tokenize raw)
    (hfail : stem tok = Except.error e) :
    ∃ e2, create_normalized_key_f stem raws = Except.error e2 := by
  rcases mapExcept_error_of_mem stem (tokenize raw) tok e htok hfail with
    ⟨e1, h1⟩
  unfold create_normalized_key_f
  apply mapExcept_error_of_mem _ raws raw e1 hraw
  rw [h1]

/-- Witness for the amended C8 at the failing stemmer and a concrete
two-token record. -/
theorem claim_C8_failure_propagates_witness :
    ∃ e2, create_normalized_key_f badStem [str "boom run"] =
      Except.error e2 :=
  claim_C8_failure_propagates badStem [str "boom run"] (str "boom run")
    (str "boom") () (by decide) (by decide) rfl

end CleanData

